import Mathlib

/-!
Verification of the Shamir secret-sharing core of the multi-party-computation
repository.  The Python source (`mpc/shamir_secret_sharing.py`, `mpc/participant.py`,
`mpc/signing_protocol.py`) is embedded shallowly: machine integers are `Int`/`Nat`
(Python integers are unbounded, and Python's `%` with a positive modulus agrees
with Lean's `Int.emod`), failure (`raise`) is `Except.error`, and the
cryptographically secure random draws of `secrets.randbelow` are passed in
explicitly as a list of naturals.
-/

namespace MPC

/-- The inner `egcd` helper of `ShamirSecretSharingParticipant._mod_inverse`:
`egcd(a, b)` returns `(g, x, y)` with `g = gcd(a, b)` and `a*x + b*y = g`.
The source recurses as `egcd(b % a, a)`; every call site passes non-negative
arguments (the modulus is positive and the first argument is already reduced
mod the modulus), so the embedding takes naturals and returns the Bezout
coefficients as integers, exactly as the Python code computes them. -/
def egcd : Nat → Nat → Int × Int × Int
  | 0, b => ((b : Int), 0, 1)
  | (a + 1), b =>
    let r := egcd (b % (a + 1)) (a + 1)
    (r.1, r.2.2 - ((b / (a + 1) : Nat) : Int) * r.2.1, r.2.1)
termination_by a _ => a
decreasing_by exact Nat.mod_lt _ (Nat.succ_pos a)

/-- `ShamirSecretSharingParticipant._mod_inverse(a, m)`: run the extended
Euclidean algorithm; if the gcd is not 1 raise
`Exception('Modular inverse does not exist')`, otherwise return `x % m`. -/
def mod_inverse (a m : Nat) : Except String Int :=
  let r := egcd a m
  if r.1 ≠ 1 then Except.error "Modular inverse does not exist"
  else Except.ok (r.2.1 % (m : Int))

/-- The share-evaluation loop of `generate_shares`: starting from `share = 0`,
for each `(j, coeff)` in `enumerate(coefficients)` do
`term = (coeff * pow(i, j, p)) % p; share = (share + term) % p`. -/
def evalShare (p : Nat) (coefficients : List Int) (i : Nat) : Int :=
  coefficients.enum.foldl
    (fun share jc => (share + jc.2 * ((i ^ jc.1 % p : Nat) : Int) % (p : Int)) % (p : Int)) 0

/-- `ShamirSecretSharingParticipant.generate_shares`: reject a secret outside
`[0, p)` (the source raises `ValueError`), otherwise build the coefficient list
`[secret, a_1, ..., a_(t-1)]` — `rand` is the list of values drawn by
`secrets.randbelow(p)`, one per loop iteration, so a run with threshold `t`
corresponds to `rand.length = t - 1` — and evaluate the polynomial at
`i = 1, ..., num_participants`. -/
def generate_shares (p num_participants : Nat) (secret : Int) (rand : List Nat) :
    Except String (List Int) :=
  if 0 ≤ secret ∧ secret < (p : Int) then
    Except.ok ((List.range num_participants).map fun k =>
      evalShare p (secret :: rand.map Int.ofNat) (k + 1))
  else Except.error "Secret must be in range"

/-- The numerator/denominator loop of `reconstruct_secret` for basis index `i`:
starting from `(1, 1)`, for each `j ≠ i` in `range(t)` do
`numerator = (numerator * (-x_coords[j])) % p` and
`denominator = (denominator * (x_coords[i] - x_coords[j])) % p`. -/
def lagrangeNumDen (p : Nat) (x_coords : List Int) (t i : Nat) : Int × Int :=
  (List.range t).foldl
    (fun nd j =>
      if i ≠ j then
        ((nd.1 * (-(x_coords.getD j 0))) % (p : Int),
         (nd.2 * (x_coords.getD i 0 - x_coords.getD j 0)) % (p : Int))
      else nd)
    (1, 1)

/-- The Lagrange-interpolation accumulation of `reconstruct_secret` (source
lines 121–144), abstracted over the x-coordinate list exactly as the source
loop reads `x_coords`: for each `i` in `range(t)` compute the numerator and
denominator, invert the denominator with `_mod_inverse` (which may raise),
set `lagrange_coef = (numerator * inv_denominator) % p`,
`term = (shares[i] * lagrange_coef) % p`, `secret = (secret + term) % p`. -/
def lagrange_sum (p : Nat) (x_coords : List Int) (shares : List Int) : Except String Int :=
  (List.range shares.length).foldlM
    (fun secret i =>
      let nd := lagrangeNumDen p x_coords shares.length i
      match mod_inverse nd.2.toNat p with
      | Except.error e => Except.error e
      | Except.ok inv_denominator =>
        Except.ok ((secret + shares.getD i 0 * ((nd.1 * inv_denominator) % (p : Int)) % (p : Int))
          % (p : Int)))
    0

/-- `ShamirSecretSharingParticipant.reconstruct_secret`: truncate to the first
`threshold` shares when more are supplied, set `x_coords = list(range(1, t+1))`
for the `t` shares actually used, and run the Lagrange accumulation. -/
def reconstruct_secret (p threshold : Nat) (shares0 : List Int) : Except String Int :=
  let shares := if shares0.length > threshold then shares0.take threshold else shares0
  lagrange_sum p ((List.range shares.length).map fun k => ((k + 1 : Nat) : Int)) shares

/-- The warning guard of `reconstruct_secret` (source lines 103–105): a
`logger.warning` is emitted exactly when fewer than `threshold` shares are
supplied; the call then proceeds normally. -/
def reconstruct_warns (threshold : Nat) (shares0 : List Int) : Bool :=
  shares0.length < threshold

/-- The state set by `MPCParticipant.__init__` (`mpc/participant.py`). -/
structure MPCParticipant where
  id : Nat
  num_participants : Nat
  shared_prime : Nat
  threshold : Nat

/-- `MPCParticipant.__init__(id, num_participants, shared_prime, threshold=None)`:
stores its arguments, defaulting `threshold` to `num_participants` when it is
`None`.  The source performs no validation and has no failure path. -/
def participant_init (id num_participants shared_prime : Nat) (threshold : Option Nat) :
    MPCParticipant :=
  { id := id, num_participants := num_participants, shared_prime := shared_prime,
    threshold := threshold.getD num_participants }

/-- The state set by `MPCSigningProtocol.__init__` (`mpc/signing_protocol.py`),
restricted to the configuration fields the claims are about. -/
structure MPCSigningProtocol where
  num_participants : Nat
  threshold : Nat
  shared_prime : Nat
  participants : List MPCParticipant

/-- The order of the SECP256k1 curve, used by `MPCSigningProtocol` as the
shared prime modulus. -/
def secp256k1_order : Nat :=
  115792089237316195423570985008687907852837564279074904382605163141518161494337

/-- `MPCSigningProtocol.__init__(num_participants, threshold)`: raises
`ValueError` when `threshold > num_participants` or `threshold < 2`, otherwise
builds the `ShamirSecretSharingParticipant(i, num_participants, shared_prime)`
list — note the participant constructor is called without a threshold
argument. -/
def protocol_init (num_participants threshold : Nat) : Except String MPCSigningProtocol :=
  if threshold > num_participants then
    Except.error "Threshold cannot be greater than the number of participants"
  else if threshold < 2 then
    Except.error "Threshold must be at least 2 for security"
  else
    Except.ok
      { num_participants := num_participants, threshold := threshold,
        shared_prime := secp256k1_order,
        participants := (List.range num_participants).map fun i =>
          participant_init i num_participants secp256k1_order none }

/-- Reference polynomial value used by the specification:
`f(x) = a_0 + a_1 x + ... + a_(t-1) x^(t-1)` as an exact integer. -/
def polySum (coeffs : List Int) (x : Int) : Int :=
  (coeffs.enum.map fun jc => jc.2 * x ^ jc.1).sum

/-! ## Correctness of the extended Euclidean algorithm and `_mod_inverse` -/

/-- `egcd a b` returns the gcd together with Bezout coefficients:
`a * x + b * y = gcd a b`. -/
theorem egcd_spec (a b : Nat) :
    (egcd a b).1 = (Nat.gcd a b : Int) ∧
    (a : Int) * (egcd a b).2.1 + (b : Int) * (egcd a b).2.2 = (egcd a b).1 := by
  induction a using Nat.strong_induction_on generalizing b with
  | _ a ih =>
    match a with
    | 0 => simp [egcd, Nat.gcd_zero_left]
    | a + 1 =>
      have hrec := ih (b % (a + 1)) (Nat.mod_lt _ (Nat.succ_pos a)) (a + 1)
      have hcast : ((a + 1 : Nat) : Int) * ((b / (a + 1) : Nat) : Int)
          + ((b % (a + 1) : Nat) : Int) = (b : Int) := by
        exact_mod_cast congrArg (Nat.cast : Nat → Int) (Nat.div_add_mod b (a + 1))
      rcases hE : egcd (b % (a + 1)) (a + 1) with ⟨g, u, v⟩
      rw [hE] at hrec
      rw [egcd]
      simp only [hE]
      constructor
      · exact hrec.1.trans (by rw [Nat.gcd_rec (a + 1) b])
      · have h2 := hrec.2
        simp only at h2 ⊢
        linear_combination h2 - u * hcast

/-- `_mod_inverse` raises exactly when the gcd is not 1. -/
theorem mod_inverse_error (a m : Nat) (h : Nat.gcd a m ≠ 1) :
    mod_inverse a m = Except.error "Modular inverse does not exist" := by
  unfold mod_inverse
  rw [if_pos]
  rw [(egcd_spec a m).1]
  exact_mod_cast h

/-- When `gcd a m = 1` and `m > 1`, `_mod_inverse` returns a value in `[0, m)`
whose product with `a` is `1` modulo `m`. -/
theorem mod_inverse_ok_of_gcd_eq_one (a m : Nat) (hm : 1 < m) (h : Nat.gcd a m = 1) :
    ∃ x : Int, mod_inverse a m = Except.ok x ∧ 0 ≤ x ∧ x < (m : Int) ∧
      ((a : Int) * x) % (m : Int) = 1 := by
  have h1 := (egcd_spec a m).1
  have h2 := (egcd_spec a m).2
  have hm0 : (0 : Int) < (m : Int) := by exact_mod_cast Nat.lt_of_lt_of_le Nat.zero_lt_one hm.le
  refine ⟨(egcd a m).2.1 % (m : Int), ?_, Int.emod_nonneg _ (by omega), Int.emod_lt_of_pos _ hm0, ?_⟩
  · unfold mod_inverse
    rw [if_neg]
    push_neg
    rw [h1, h]
    norm_num
  · have key : ((a : Int) * ((egcd a m).2.1 % (m : Int))) % (m : Int)
        = ((a : Int) * (egcd a m).2.1) % (m : Int) := by
      rw [Int.mul_emod, Int.emod_emod_of_dvd _ dvd_rfl, ← Int.mul_emod]
    rw [key]
    have hau : (a : Int) * (egcd a m).2.1 = 1 - (m : Int) * (egcd a m).2.2 := by
      rw [h1, h] at h2
      push_cast at h2
      linarith
    rw [hau, sub_eq_add_neg, ← mul_neg, Int.add_mul_emod_self_left]
    exact Int.emod_eq_of_lt (by norm_num) (by exact_mod_cast hm)

/-! ## Bridging integer arithmetic mod `p` with `ZMod p` -/

theorem intCast_emod_zmod (p : Nat) (a : Int) :
    (((a % (p : Int)) : Int) : ZMod p) = (a : ZMod p) := by
  rw [ZMod.intCast_eq_intCast_iff']
  exact Int.emod_emod_of_dvd a dvd_rfl

theorem int_eq_of_zmod_eq {p : Nat} {a b : Int} (ha0 : 0 ≤ a) (hap : a < (p : Int))
    (hb0 : 0 ≤ b) (hbp : b < (p : Int)) (h : (a : ZMod p) = (b : ZMod p)) : a = b := by
  rw [ZMod.intCast_eq_intCast_iff'] at h
  rwa [Int.emod_eq_of_lt ha0 hap, Int.emod_eq_of_lt hb0 hbp] at h

/-- Over a prime modulus, `_mod_inverse a p` computes the field inverse of `a`. -/
theorem mod_inverse_zmod {p : Nat} (hp : p.Prime) (a : Nat) (h : Nat.gcd a p = 1) :
    ∃ x : Int, mod_inverse a p = Except.ok x ∧ 0 ≤ x ∧ x < (p : Int) ∧
      (x : ZMod p) = ((a : ZMod p))⁻¹ := by
  obtain ⟨x, hok, h0, hlt, hmod⟩ := mod_inverse_ok_of_gcd_eq_one a p hp.one_lt h
  haveI := Fact.mk hp
  refine ⟨x, hok, h0, hlt, ?_⟩
  have hcast : (((a : Int) * x : Int) : ZMod p) = 1 := by
    rw [← intCast_emod_zmod p ((a : Int) * x), hmod]
    norm_num
  push_cast at hcast
  exact eq_inv_of_mul_eq_one_right hcast

/-! ## The share-evaluation loop computes the polynomial value mod `p` -/

theorem evalShare_fold (p : Nat) (hp : 0 < p) (i : Nat) (c : List Int) :
    ∀ (n : Nat) (a : Int), 0 ≤ a → a < (p : Int) →
      0 ≤ ((c.enumFrom n).foldl
          (fun share jc => (share + jc.2 * ((i ^ jc.1 % p : Nat) : Int) % (p : Int)) % (p : Int)) a)
      ∧ ((c.enumFrom n).foldl
          (fun share jc => (share + jc.2 * ((i ^ jc.1 % p : Nat) : Int) % (p : Int)) % (p : Int)) a)
          < (p : Int)
      ∧ ((((c.enumFrom n).foldl
          (fun share jc => (share + jc.2 * ((i ^ jc.1 % p : Nat) : Int) % (p : Int)) % (p : Int)) a
            : Int)) : ZMod p)
        = (a : ZMod p) + ((((c.enumFrom n).map fun jc => jc.2 * (i : Int) ^ jc.1).sum : Int) : ZMod p) := by
  induction c with
  | nil =>
    intro n a ha0 hap
    simp [List.enumFrom]
    exact ⟨ha0, hap⟩
  | cons x xs ih =>
    intro n a ha0 hap
    have hp' : (0 : Int) < (p : Int) := by exact_mod_cast hp
    have hstep0 : 0 ≤ (a + x * ((i ^ n % p : Nat) : Int) % (p : Int)) % (p : Int) :=
      Int.emod_nonneg _ (by omega)
    have hstepp : (a + x * ((i ^ n % p : Nat) : Int) % (p : Int)) % (p : Int) < (p : Int) :=
      Int.emod_lt_of_pos _ hp'
    obtain ⟨r0, rp, rc⟩ := ih (n + 1) _ hstep0 hstepp
    refine ⟨?_, ?_, ?_⟩
    · simpa [List.enumFrom] using r0
    · simpa [List.enumFrom] using rp
    · simp only [List.enumFrom, List.foldl_cons, List.map_cons, List.sum_cons]
      rw [rc]
      have hc1 : (((a + x * ((i ^ n % p : Nat) : Int) % (p : Int)) % (p : Int) : Int) : ZMod p)
          = (a : ZMod p) + ((x : ZMod p) * ((i : ZMod p)) ^ n) := by
        rw [intCast_emod_zmod]
        push_cast
        ring
      rw [hc1]
      push_cast
      ring

/-- The share loop of `generate_shares` returns the reduced polynomial value:
it lands in `[0, p)` and agrees with the exact integer polynomial mod `p`. -/
theorem evalShare_spec (p : Nat) (hp : 0 < p) (c : List Int) (i : Nat) :
    0 ≤ evalShare p c i ∧ evalShare p c i < (p : Int) ∧
      ((evalShare p c i : Int) : ZMod p) = ((polySum c (i : Int) : Int) : ZMod p) := by
  have h := evalShare_fold p hp i c 0 0 le_rfl (by exact_mod_cast hp)
  simp only [evalShare, polySum, List.enum]
  refine ⟨h.1, h.2.1, ?_⟩
  rw [h.2.2]
  simp

/-- `evalShare` is exactly the mathematical polynomial value reduced mod `p`. -/
theorem evalShare_eq_polySum_mod (p : Nat) (hp : 0 < p) (c : List Int) (i : Nat) :
    evalShare p c i = polySum c (i : Int) % (p : Int) := by
  obtain ⟨h0, hlt, hc⟩ := evalShare_spec p hp c i
  have hp' : (0 : Int) < (p : Int) := by exact_mod_cast hp
  refine int_eq_of_zmod_eq h0 hlt (Int.emod_nonneg _ (by omega)) (Int.emod_lt_of_pos _ hp') ?_
  rw [intCast_emod_zmod]
  exact hc

/-! ## The numerator/denominator loop of `reconstruct_secret` -/

theorem lagrangeNumDen_spec (p : Nat) (hp : 1 < p) (xs : List Int) (i : Nat) (t : Nat) :
    (0 ≤ (lagrangeNumDen p xs t i).1 ∧ (lagrangeNumDen p xs t i).1 < (p : Int)) ∧
    (0 ≤ (lagrangeNumDen p xs t i).2 ∧ (lagrangeNumDen p xs t i).2 < (p : Int)) ∧
    (((lagrangeNumDen p xs t i).1 : ZMod p)
      = ∏ j in (Finset.range t).erase i, ((-(xs.getD j 0) : Int) : ZMod p)) ∧
    (((lagrangeNumDen p xs t i).2 : ZMod p)
      = ∏ j in (Finset.range t).erase i, ((xs.getD i 0 - xs.getD j 0 : Int) : ZMod p)) := by
  have hp' : (1 : Int) < (p : Int) := by exact_mod_cast hp
  induction t with
  | zero =>
    simp [lagrangeNumDen]
    omega
  | succ t iht =>
    have hunf : lagrangeNumDen p xs (t + 1) i =
        (fun nd (j : Nat) => if i ≠ j then
          (((nd.1 * (-(xs.getD j 0))) % (p : Int)),
           ((nd.2 * (xs.getD i 0 - xs.getD j 0)) % (p : Int))) else nd)
          (lagrangeNumDen p xs t i) t := by
      simp [lagrangeNumDen, List.range_succ]
    obtain ⟨⟨hn0, hnp⟩, ⟨hd0, hdp⟩, hnc, hdc⟩ := iht
    by_cases hit : i = t
    · subst hit
      have hset : (Finset.range (i + 1)).erase i = Finset.range i := by
        rw [Finset.range_succ, Finset.erase_insert (Finset.not_mem_range_self)]
      have hset' : (Finset.range i).erase i = Finset.range i :=
        Finset.erase_eq_of_not_mem (by simp)
      rw [hunf]
      simp only [ne_eq, not_true_eq_false, if_neg, ite_self, if_false, not_false_eq_true]
      rw [hset]
      rw [hset'] at hnc hdc
      exact ⟨⟨hn0, hnp⟩, ⟨hd0, hdp⟩, hnc, hdc⟩
    · have hset : (Finset.range (t + 1)).erase i = insert t ((Finset.range t).erase i) := by
        rw [Finset.range_succ, Finset.erase_insert_of_ne (fun h => hit h.symm)]
      have htback : t ∉ (Finset.range t).erase i :=
        fun h => Finset.not_mem_range_self (Finset.mem_of_mem_erase h)
      rw [hunf]
      simp only [ne_eq, hit, not_false_eq_true, if_true, if_pos]
      have hpne : (p : Int) ≠ 0 := by omega
      have hppos : (0 : Int) < (p : Int) := by omega
      refine ⟨⟨Int.emod_nonneg _ hpne, Int.emod_lt_of_pos _ hppos⟩,
             ⟨Int.emod_nonneg _ hpne, Int.emod_lt_of_pos _ hppos⟩, ?_, ?_⟩
      · rw [hset, Finset.prod_insert htback, intCast_emod_zmod]
        push_cast at hnc ⊢
        rw [hnc]
        ring
      · rw [hset, Finset.prod_insert htback, intCast_emod_zmod]
        push_cast at hdc ⊢
        rw [hdc]
        ring

/-! ## The Lagrange accumulation loop -/

/-- When every denominator is nonzero mod the prime `p`, the accumulation loop
of `reconstruct_secret` succeeds, stays in `[0, p)`, and computes the sum of
`share_i * numerator_i / denominator_i` in the field `ZMod p`. -/
theorem lagrange_sum_ok (p : Nat) (hp : p.Prime) (xs shares : List Int)
    (hden : ∀ i, i < shares.length →
      (((lagrangeNumDen p xs shares.length i).2 : Int) : ZMod p) ≠ 0) :
    ∃ S : Int, lagrange_sum p xs shares = Except.ok S ∧ 0 ≤ S ∧ S < (p : Int) ∧
      ((S : Int) : ZMod p) = ∑ i in Finset.range shares.length,
        ((shares.getD i 0 : Int) : ZMod p)
          * (((lagrangeNumDen p xs shares.length i).1 : Int) : ZMod p)
          * ((((lagrangeNumDen p xs shares.length i).2 : Int) : ZMod p))⁻¹ := by
  haveI := Fact.mk hp
  have hp1 : 1 < p := hp.one_lt
  have hp0 : (0 : Int) < (p : Int) := by exact_mod_cast hp.pos
  have hpne : (p : Int) ≠ 0 := by omega
  have main : ∀ m, m ≤ shares.length → ∃ S : Int,
      ((List.range m).foldlM
        (fun secret i =>
          let nd := lagrangeNumDen p xs shares.length i
          match mod_inverse nd.2.toNat p with
          | Except.error e => Except.error e
          | Except.ok inv_denominator =>
            Except.ok ((secret + shares.getD i 0 * ((nd.1 * inv_denominator) % (p : Int))
              % (p : Int)) % (p : Int)))
        0 : Except String Int) = Except.ok S ∧ 0 ≤ S ∧ S < (p : Int) ∧
      ((S : Int) : ZMod p) = ∑ i in Finset.range m,
        ((shares.getD i 0 : Int) : ZMod p)
          * (((lagrangeNumDen p xs shares.length i).1 : Int) : ZMod p)
          * ((((lagrangeNumDen p xs shares.length i).2 : Int) : ZMod p))⁻¹ := by
    intro m
    induction m with
    | zero =>
      intro _
      exact ⟨0, rfl, le_rfl, hp0, by simp⟩
    | succ m ih =>
      intro hm
      obtain ⟨S, hok, hS0, hSp, hSc⟩ := ih (Nat.le_of_succ_le hm)
      have hmlen : m < shares.length := hm
      obtain ⟨⟨hn0, hnp⟩, ⟨hd0, hdp⟩, hnc, hdc⟩ := lagrangeNumDen_spec p hp1 xs m shares.length
      have hdtn : (((lagrangeNumDen p xs shares.length m).2.toNat : Nat) : ZMod p)
          = (((lagrangeNumDen p xs shares.length m).2 : Int) : ZMod p) := by
        rw [← Int.cast_natCast (R := ZMod p), Int.toNat_of_nonneg hd0]
      have hnz : (((lagrangeNumDen p xs shares.length m).2.toNat : Nat) : ZMod p) ≠ 0 := by
        rw [hdtn]
        exact hden m hmlen
      have hgcd : Nat.gcd (lagrangeNumDen p xs shares.length m).2.toNat p = 1 := by
        have hnd2 : ¬ (p ∣ (lagrangeNumDen p xs shares.length m).2.toNat) := fun hdvd =>
          hnz ((ZMod.natCast_zmod_eq_zero_iff_dvd _ _).2 hdvd)
        exact Nat.Coprime.symm (hp.coprime_iff_not_dvd.2 hnd2)
      obtain ⟨x, hxok, hx0, hxp, hxinv⟩ := mod_inverse_zmod hp _ hgcd
      rw [List.range_succ, List.foldlM_append, hok]
      refine ⟨(S + shares.getD m 0
          * (((lagrangeNumDen p xs shares.length m).1 * x) % (p : Int)) % (p : Int)) % (p : Int),
        ?_, Int.emod_nonneg _ hpne, Int.emod_lt_of_pos _ hp0, ?_⟩
      · simp only [List.foldlM_cons, List.foldlM_nil, hxok]
        rfl
      · rw [Finset.sum_range_succ, ← hSc]
        rw [intCast_emod_zmod]
        push_cast
        rw [hxinv, hdtn]
        ring
  obtain ⟨S, h1, h2, h3, h4⟩ := main shares.length le_rfl
  exact ⟨S, h1, h2, h3, h4⟩

/-! ## The specification polynomial as a finite sum -/

theorem enumFrom_map_sum (c : List Int) (x : Int) :
    ∀ n : Nat, ((c.enumFrom n).map fun jc => jc.2 * x ^ jc.1).sum
      = ∑ j in Finset.range c.length, c.getD j 0 * x ^ (n + j) := by
  induction c with
  | nil => intro n; simp
  | cons a c ih =>
    intro n
    simp only [List.enumFrom, List.map_cons, List.sum_cons, List.length_cons]
    rw [ih (n + 1), Finset.sum_range_succ']
    simp only [List.getD_cons_succ, List.getD_cons_zero, Nat.add_zero]
    rw [add_comm]
    congr 1
    apply Finset.sum_congr rfl
    intro j _
    rw [show n + 1 + j = n + (j + 1) from by omega]

theorem polySum_eq_finset (c : List Int) (x : Int) :
    polySum c x = ∑ j in Finset.range c.length, c.getD j 0 * x ^ j := by
  have h := enumFrom_map_sum c x 0
  simp only [Nat.zero_add] at h
  simpa [polySum, List.enum] using h

/-! ## Lagrange interpolation recovers the constant coefficient -/

/-- Correctness of the Lagrange accumulation over a prime modulus: if the
supplied x-coordinates are pairwise distinct in `ZMod p` and each share is
congruent mod `p` to the coefficient polynomial's value at its x-coordinate,
the loop of `reconstruct_secret` succeeds and returns the residue of the
constant coefficient. -/
theorem lagrange_sum_interpolates (p : Nat) (hp : p.Prime) (xs shares c : List Int)
    (hc : c ≠ []) (hlen : c.length ≤ shares.length)
    (hdist : ∀ i j, i < shares.length → j < shares.length → i ≠ j →
      ((xs.getD i 0 : Int) : ZMod p) ≠ ((xs.getD j 0 : Int) : ZMod p))
    (hy : ∀ i, i < shares.length →
      ((shares.getD i 0 : Int) : ZMod p) = ((polySum c (xs.getD i 0) : Int) : ZMod p)) :
    ∃ S : Int, lagrange_sum p xs shares = Except.ok S ∧ 0 ≤ S ∧ S < (p : Int) ∧
      ((S : Int) : ZMod p) = ((c.getD 0 0 : Int) : ZMod p) := by
  haveI := Fact.mk hp
  have hp1 : 1 < p := hp.one_lt
  classical
  have hden : ∀ i, i < shares.length →
      (((lagrangeNumDen p xs shares.length i).2 : Int) : ZMod p) ≠ 0 := by
    intro i hi
    rw [(lagrangeNumDen_spec p hp1 xs i shares.length).2.2.2]
    rw [Finset.prod_ne_zero_iff]
    intro j hj
    have hjlt : j < shares.length := Finset.mem_range.1 (Finset.mem_of_mem_erase hj)
    have hjne : j ≠ i := Finset.ne_of_mem_erase hj
    have hvne := hdist i j hi hjlt (fun h => hjne h.symm)
    intro h0
    apply hvne
    have h0' : ((xs.getD i 0 : Int) : ZMod p) - ((xs.getD j 0 : Int) : ZMod p) = 0 := by
      push_cast at h0
      exact h0
    exact sub_eq_zero.1 h0'
  obtain ⟨S, hok, hS0, hSp, hSc⟩ := lagrange_sum_ok p hp xs shares hden
  refine ⟨S, hok, hS0, hSp, ?_⟩
  rw [hSc]
  set t := shares.length with ht
  set v : Nat → ZMod p := fun j => ((xs.getD j 0 : Int) : ZMod p) with hv
  have hvinj : Set.InjOn v ((Finset.range t) : Finset Nat) := by
    intro i hi j hj hij
    by_contra hne
    exact hdist i j (Finset.mem_range.1 (Finset.mem_coe.1 hi))
      (Finset.mem_range.1 (Finset.mem_coe.1 hj)) hne hij
  set f : Polynomial (ZMod p) := ∑ j in Finset.range c.length,
      Polynomial.C ((c.getD j 0 : Int) : ZMod p) * Polynomial.X ^ j with hfdef
  have hfeval : ∀ z : ZMod p, f.eval z
      = ∑ j in Finset.range c.length, ((c.getD j 0 : Int) : ZMod p) * z ^ j := by
    intro z
    rw [hfdef, Polynomial.eval_finset_sum]
    apply Finset.sum_congr rfl
    intro j _
    simp
  have hfdeg : f.degree < ((Finset.range t).card : WithBot Nat) := by
    rw [Finset.card_range]
    refine lt_of_le_of_lt (Polynomial.degree_sum_le _ _) ?_
    rw [Finset.sup_lt_iff (WithBot.bot_lt_coe _)]
    intro j hj
    refine lt_of_le_of_lt (Polynomial.degree_C_mul_X_pow_le _ _) ?_
    exact_mod_cast lt_of_lt_of_le (Finset.mem_range.1 hj) hlen
  have hy' : ∀ i ∈ Finset.range t, ((shares.getD i 0 : Int) : ZMod p) = f.eval (v i) := by
    intro i hi
    have hi' := Finset.mem_range.1 hi
    rw [hy i hi', hfeval (v i), polySum_eq_finset]
    push_cast
    rfl
  have hinterp := Lagrange.eq_interpolate (f := f) hvinj hfdeg
  have hbasis : ∀ i ∈ Finset.range t, (Lagrange.basis (Finset.range t) v i).eval 0
      = (∏ j in (Finset.range t).erase i, (-(v j)))
        * (∏ j in (Finset.range t).erase i, (v i - v j))⁻¹ := by
    intro i hi
    rw [Lagrange.basis, Polynomial.eval_prod, ← Finset.prod_inv_distrib,
      ← Finset.prod_mul_distrib]
    apply Finset.prod_congr rfl
    intro j hj
    simp [Lagrange.basisDivisor]
    ring
  have hf0 : f.eval 0 = ((c.getD 0 0 : Int) : ZMod p) := by
    rw [hfeval 0]
    have hne : 0 < c.length := List.length_pos.2 hc
    rw [Finset.sum_eq_single_of_mem 0 (Finset.mem_range.2 hne)]
    · simp
    · intro j _ hj0
      simp [zero_pow hj0]
  have hterm : ∀ i ∈ Finset.range t,
      ((shares.getD i 0 : Int) : ZMod p)
        * (((lagrangeNumDen p xs t i).1 : Int) : ZMod p)
        * ((((lagrangeNumDen p xs t i).2 : Int) : ZMod p))⁻¹
      = f.eval (v i) * (Lagrange.basis (Finset.range t) v i).eval 0 := by
    intro i hi
    rw [hy' i hi, hbasis i hi]
    rw [(lagrangeNumDen_spec p hp1 xs i t).2.2.1, (lagrangeNumDen_spec p hp1 xs i t).2.2.2]
    have h1 : ∏ j in (Finset.range t).erase i, ((-(xs.getD j 0) : Int) : ZMod p)
        = ∏ j in (Finset.range t).erase i, (-(v j)) := by
      apply Finset.prod_congr rfl
      intro j _
      push_cast
      rfl
    have h2 : ∏ j in (Finset.range t).erase i, ((xs.getD i 0 - xs.getD j 0 : Int) : ZMod p)
        = ∏ j in (Finset.range t).erase i, (v i - v j) := by
      apply Finset.prod_congr rfl
      intro j _
      push_cast
      rfl
    rw [h1, h2]
    ring
  rw [Finset.sum_congr rfl hterm]
  have hsum : ∑ i in Finset.range t, Polynomial.eval (v i) f
        * Polynomial.eval 0 (Lagrange.basis (Finset.range t) v i)
      = Polynomial.eval 0 ((Lagrange.interpolate (Finset.range t) v)
          fun i => Polynomial.eval (v i) f) := by
    rw [Lagrange.interpolate_apply, Polynomial.eval_finset_sum]
    apply Finset.sum_congr rfl
    intro i _
    simp
  rw [hsum, ← hinterp, hf0]

/-! ## Plumbing lemmas for list indexing -/

theorem getD_map_range {n i : Nat} (f : Nat → Int) (hi : i < n) :
    ((List.range n).map f).getD i 0 = f i := by
  rw [List.getD_eq_getElem?_getD, List.getElem?_map, List.getElem?_range hi]
  rfl

theorem getD_take {l : List Int} {t i : Nat} (hi : i < t) :
    (l.take t).getD i 0 = l.getD i 0 := by
  rw [List.getD_eq_getElem?_getD, List.getD_eq_getElem?_getD, List.getElem?_take]
  simp [hi]

/-- The x-coordinates `1, 2, ..., t` are pairwise distinct mod `p` whenever
`t ≤ p` (indices below `p`). -/
theorem coords_distinct_mod (p i j : Nat) (hi : i < p) (hj : j < p) (hne : i ≠ j) :
    (((i + 1 : Nat) : ZMod p)) ≠ (((j + 1 : Nat) : ZMod p)) := by
  rw [Ne, ZMod.natCast_eq_natCast_iff']
  intro h
  rcases Nat.lt_or_ge (i + 1) p with h1 | h1
  · rw [Nat.mod_eq_of_lt h1] at h
    rcases Nat.lt_or_ge (j + 1) p with h2 | h2
    · rw [Nat.mod_eq_of_lt h2] at h
      omega
    · have hjp : j + 1 = p := by omega
      rw [hjp, Nat.mod_self] at h
      omega
  · have hip : i + 1 = p := by omega
    rw [hip, Nat.mod_self] at h
    rcases Nat.lt_or_ge (j + 1) p with h2 | h2
    · rw [Nat.mod_eq_of_lt h2] at h
      omega
    · omega

/-- `reconstruct_secret` with at most `threshold` shares does not truncate. -/
theorem reconstruct_eq_of_le (p threshold : Nat) (l : List Int)
    (h : ¬ (l.length > threshold)) :
    reconstruct_secret p threshold l
      = lagrange_sum p ((List.range l.length).map fun k => ((k + 1 : Nat) : Int)) l := by
  unfold reconstruct_secret
  rw [if_neg h]

/-! ## Round-trip correctness -/

/-- Core round trip: over a prime `p`, with `1 ≤ t ≤ N` and `t ≤ p`, a valid
secret is recovered from the first `t` generated shares. -/
theorem roundtrip_core (p N t : Nat) (hp : p.Prime) (ht1 : 1 ≤ t) (htN : t ≤ N) (htp : t ≤ p)
    (s : Int) (hs0 : 0 ≤ s) (hsp : s < (p : Int)) (rand : List Nat)
    (hlen : rand.length = t - 1) :
    ∃ shares : List Int, generate_shares p N s rand = Except.ok shares ∧
      shares.length = N ∧
      reconstruct_secret p t (shares.take t) = Except.ok s := by
  have hp0 : 0 < p := hp.pos
  have hgen : generate_shares p N s rand
      = Except.ok ((List.range N).map fun k => evalShare p (s :: rand.map Int.ofNat) (k + 1)) := by
    unfold generate_shares
    rw [if_pos ⟨hs0, hsp⟩]
  refine ⟨_, hgen, by simp, ?_⟩
  have hclen : (s :: rand.map Int.ofNat).length = t := by
    simp [hlen]
    omega
  have hshlen : ((List.range N).map fun k =>
      evalShare p (s :: rand.map Int.ofNat) (k + 1)).length = N := by simp
  have hlentake : (((List.range N).map fun k =>
      evalShare p (s :: rand.map Int.ofNat) (k + 1)).take t).length = t := by
    rw [List.length_take, hshlen]
    omega
  have hnotgt : ¬ ((((List.range N).map fun k =>
      evalShare p (s :: rand.map Int.ofNat) (k + 1)).take t).length > t) := by
    rw [hlentake]
    omega
  rw [reconstruct_eq_of_le p t _ hnotgt, hlentake]
  have hdist : ∀ i j, i < (((List.range N).map fun k =>
        evalShare p (s :: rand.map Int.ofNat) (k + 1)).take t).length →
      j < (((List.range N).map fun k =>
        evalShare p (s :: rand.map Int.ofNat) (k + 1)).take t).length → i ≠ j →
      (((((List.range t).map fun k => ((k + 1 : Nat) : Int)).getD i 0 : Int) : ZMod p)
        ≠ ((((List.range t).map fun k => ((k + 1 : Nat) : Int)).getD j 0 : Int) : ZMod p)) := by
    intro i j hi hj hne
    rw [hlentake] at hi hj
    rw [getD_map_range _ hi, getD_map_range _ hj]
    have h := coords_distinct_mod p i j (lt_of_lt_of_le hi htp) (lt_of_lt_of_le hj htp) hne
    intro hcontra
    apply h
    push_cast at hcontra ⊢
    exact hcontra
  have hy : ∀ i, i < (((List.range N).map fun k =>
        evalShare p (s :: rand.map Int.ofNat) (k + 1)).take t).length →
      ((((((List.range N).map fun k =>
          evalShare p (s :: rand.map Int.ofNat) (k + 1)).take t).getD i 0 : Int)) : ZMod p)
        = ((polySum (s :: rand.map Int.ofNat)
            (((List.range t).map fun k => ((k + 1 : Nat) : Int)).getD i 0) : Int) : ZMod p) := by
    intro i hi
    rw [hlentake] at hi
    rw [getD_take hi, getD_map_range _ (lt_of_lt_of_le hi htN),
      getD_map_range _ hi]
    exact (evalShare_spec p hp0 (s :: rand.map Int.ofNat) (i + 1)).2.2
  obtain ⟨S, hok, hS0, hSp, hSc⟩ := lagrange_sum_interpolates p hp
    ((List.range t).map fun k => ((k + 1 : Nat) : Int))
    (((List.range N).map fun k => evalShare p (s :: rand.map Int.ofNat) (k + 1)).take t)
    (s :: rand.map Int.ofNat)
    (by simp)
    (by rw [hclen, hlentake])
    hdist hy
  rw [hok]
  have hSs : S = s :=
    int_eq_of_zmod_eq hS0 hSp hs0 hsp (by rw [hSc]; rfl)
  rw [hSs]

/-! ## Claim theorems -/

/-- C8: for a prime `p`, `_mod_inverse(a, p)` returns the unique `x` in `[0, p)`
with `a*x ≡ 1 (mod p)` when `gcd(a, p) = 1`, and fails with the no-inverse
error when `gcd(a, p) ≠ 1`. -/
theorem C8_mod_inverse (p : Nat) (hp : p.Prime) (a : Nat) :
    (Nat.gcd a p = 1 →
      ∃ x : Int, mod_inverse a p = Except.ok x ∧ 0 ≤ x ∧ x < (p : Int) ∧
        ((a : Int) * x) % (p : Int) = 1 ∧
        ∀ y : Int, 0 ≤ y → y < (p : Int) → ((a : Int) * y) % (p : Int) = 1 → y = x)
    ∧ (Nat.gcd a p ≠ 1 →
      mod_inverse a p = Except.error "Modular inverse does not exist") := by
  constructor
  · intro h
    obtain ⟨x, hok, h0, hlt, hmod⟩ := mod_inverse_ok_of_gcd_eq_one a p hp.one_lt h
    refine ⟨x, hok, h0, hlt, hmod, ?_⟩
    intro y hy0 hyp hym
    haveI := Fact.mk hp
    apply int_eq_of_zmod_eq hy0 hyp h0 hlt
    have hca : ((a : Nat) : ZMod p) ≠ 0 := by
      rw [Ne, ZMod.natCast_zmod_eq_zero_iff_dvd]
      intro hdvd
      have hgp : Nat.gcd a p = p := Nat.gcd_eq_right hdvd
      have h1lt := hp.one_lt
      omega
    have h1 : ((a : Nat) : ZMod p) * ((y : Int) : ZMod p) = 1 := by
      have hcast : (((a : Int) * y % (p : Int) : Int) : ZMod p) = ((1 : Int) : ZMod p) := by
        rw [hym]
      rw [intCast_emod_zmod] at hcast
      push_cast at hcast
      exact hcast
    have h2 : ((a : Nat) : ZMod p) * ((x : Int) : ZMod p) = 1 := by
      have hcast : (((a : Int) * x % (p : Int) : Int) : ZMod p) = ((1 : Int) : ZMod p) := by
        rw [hmod]
      rw [intCast_emod_zmod] at hcast
      push_cast at hcast
      exact hcast
    exact mul_left_cancel₀ hca (h1.trans h2.symm)
  · exact mod_inverse_error a p

/-- C8 witness: instantiation at `a = 3`, `p = 7`. -/
theorem C8_mod_inverse_witness :
    (Nat.gcd 3 7 = 1 →
      ∃ x : Int, mod_inverse 3 7 = Except.ok x ∧ 0 ≤ x ∧ x < (7 : Int) ∧
        ((3 : Int) * x) % (7 : Int) = 1 ∧
        ∀ y : Int, 0 ≤ y → y < (7 : Int) → ((3 : Int) * y) % (7 : Int) = 1 → y = x)
    ∧ (Nat.gcd 3 7 ≠ 1 →
      mod_inverse 3 7 = Except.error "Modular inverse does not exist") :=
  C8_mod_inverse 7 (by norm_num) 3

/-- C9: a participant constructed without a threshold argument (or with `None`)
gets `threshold = num_participants`; the signing protocol constructs all its
participants that way, so every protocol participant has
`threshold = num_participants` (and hence draws `num_participants - 1` random
coefficients, a polynomial of degree `num_participants - 1`) regardless of the
protocol-level threshold. -/
theorem C9_default_threshold (num_participants threshold id prime : Nat)
    (h2 : 2 ≤ threshold) (hN : threshold ≤ num_participants) :
    (participant_init id num_participants prime none).threshold = num_participants ∧
    ∃ proto, protocol_init num_participants threshold = Except.ok proto ∧
      proto.threshold = threshold ∧
      proto.participants.length = num_participants ∧
      ∀ P ∈ proto.participants, P.threshold = num_participants ∧
        P.threshold - 1 = num_participants - 1 := by
  refine ⟨rfl, ?_⟩
  refine ⟨⟨num_participants, threshold, secp256k1_order,
    (List.range num_participants).map fun i =>
      participant_init i num_participants secp256k1_order none⟩, ?_, rfl, by simp, ?_⟩
  · unfold protocol_init
    rw [if_neg (by omega), if_neg (by omega)]
  · intro P hP
    simp only [List.mem_map] at hP
    obtain ⟨i, _, hPdef⟩ := hP
    rw [← hPdef]
    exact ⟨rfl, rfl⟩

/-- C9 witness: instantiation at `N = 3`, `t = 2`, `id = 0`,
`prime = secp256k1_order`. -/
theorem C9_default_threshold_witness :
    (participant_init 0 3 (secp256k1_order) none).threshold = 3 ∧
    ∃ proto, protocol_init 3 2 = Except.ok proto ∧
      proto.threshold = 2 ∧
      proto.participants.length = 3 ∧
      ∀ P ∈ proto.participants, P.threshold = 3 ∧ P.threshold - 1 = 3 - 1 :=
  C9_default_threshold 3 2 0 (secp256k1_order) (by omega) (by omega)

/-- C3 counterexample: `MPCParticipant.__init__` performs no threshold
validation — constructing a participant with `threshold = 4 > N = 3`, or with
`threshold = 1 < 2`, succeeds and simply records the invalid threshold, so the
claim that participant construction fails eagerly is false. -/
theorem C3_counterexample :
    participant_init 0 3 7 (some 4)
      = { id := 0, num_participants := 3, shared_prime := 7, threshold := 4 } ∧
    participant_init 0 5 7 (some 1)
      = { id := 0, num_participants := 5, shared_prime := 7, threshold := 1 } :=
  ⟨rfl, rfl⟩

/-- C3 (amended): the eager `2 ≤ t ≤ N` check lives in
`MPCSigningProtocol.__init__`, which fails (with `ValueError`) exactly when
`t > N` or `t < 2`, before any share operation; the participant constructor
itself performs no validation and never fails. -/
theorem C3_threshold_validation (num_participants threshold : Nat) :
    ((∃ proto, protocol_init num_participants threshold = Except.ok proto)
      ↔ (2 ≤ threshold ∧ threshold ≤ num_participants)) ∧
    ((∃ e, protocol_init num_participants threshold = Except.error e)
      ↔ (threshold > num_participants ∨ threshold < 2)) ∧
    (∀ id prime thr, (participant_init id num_participants prime thr).threshold
      = thr.getD num_participants) := by
  refine ⟨?_, ?_, fun id prime thr => rfl⟩
  · constructor
    · rintro ⟨proto, hok⟩
      unfold protocol_init at hok
      by_cases h1 : threshold > num_participants
      · rw [if_pos h1] at hok
        exact absurd hok (by simp)
      · by_cases h2 : threshold < 2
        · rw [if_neg h1, if_pos h2] at hok
          exact absurd hok (by simp)
        · omega
    · intro h
      unfold protocol_init
      rw [if_neg (by omega), if_neg (by omega)]
      exact ⟨_, rfl⟩
  · constructor
    · rintro ⟨e, herr⟩
      unfold protocol_init at herr
      by_cases h1 : threshold > num_participants
      · omega
      · by_cases h2 : threshold < 2
        · omega
        · rw [if_neg h1, if_neg h2] at herr
          exact absurd herr (by simp)
    · intro h
      unfold protocol_init
      rcases Nat.lt_or_ge num_participants threshold with h1 | h1
      · rw [if_pos h1]
        exact ⟨_, rfl⟩
      · rw [if_neg (by omega), if_pos (by omega)]
        exact ⟨_, rfl⟩

/-- C3 instantiation: at `N = 3`, `t = 4` the protocol constructor fails while
the participant constructor records the invalid threshold without failing. -/
theorem C3_threshold_validation_example :
    ((∃ proto, protocol_init 3 4 = Except.ok proto) ↔ (2 ≤ 4 ∧ 4 ≤ 3)) ∧
    ((∃ e, protocol_init 3 4 = Except.error e) ↔ (4 > 3 ∨ 4 < 2)) ∧
    (∀ id prime thr, (participant_init id 3 prime thr).threshold = thr.getD 3) :=
  C3_threshold_validation 3 4

/-- C6: when more than `threshold` shares are supplied, `reconstruct_secret`
uses exactly the first `threshold` of them. -/
theorem C6_truncation (p threshold : Nat) (shares : List Int)
    (h : shares.length > threshold) :
    reconstruct_secret p threshold shares
      = reconstruct_secret p threshold (shares.take threshold) := by
  have htake : (shares.take threshold).length = threshold := by
    rw [List.length_take]
    omega
  have hgt : reconstruct_secret p threshold shares
      = lagrange_sum p ((List.range (shares.take threshold).length).map
          fun k => ((k + 1 : Nat) : Int)) (shares.take threshold) := by
    unfold reconstruct_secret
    rw [if_pos h]
  rw [hgt, reconstruct_eq_of_le p threshold _ (by omega)]

/-- C6 witness: three shares with threshold 2. -/
theorem C6_truncation_witness :
    reconstruct_secret 7 2 [2, 6, 3] = reconstruct_secret 7 2 ([2, 6, 3].take 2) :=
  C6_truncation 7 2 [2, 6, 3] (by decide)

/-- C2: for a valid secret, `generate_shares` returns exactly `N` shares; the
share at position `i - 1` (x-coordinate `i`, in ascending order) is the
polynomial value `f(i) mod p` for the coefficient vector
`[secret, a_1, ..., a_(t-1)]` — a polynomial of degree `t - 1` whose constant
term is the secret — and every share lies in `[0, p)`. -/
theorem C2_generate_output (p N t : Nat) (hp : p.Prime) (ht1 : 1 ≤ t)
    (s : Int) (hs0 : 0 ≤ s) (hsp : s < (p : Int)) (rand : List Nat)
    (hlen : rand.length = t - 1) :
    ∃ shares : List Int, generate_shares p N s rand = Except.ok shares ∧
      shares.length = N ∧
      (∀ i, i < N → shares.getD i 0
        = polySum (s :: rand.map Int.ofNat) ((i + 1 : Nat) : Int) % (p : Int)) ∧
      (∀ i, i < N → 0 ≤ shares.getD i 0 ∧ shares.getD i 0 < (p : Int)) ∧
      (s :: rand.map Int.ofNat).length = t ∧
      (s :: rand.map Int.ofNat).getD 0 0 = s := by
  have hp0 : 0 < p := hp.pos
  refine ⟨_, by unfold generate_shares; rw [if_pos ⟨hs0, hsp⟩], by simp, ?_, ?_,
    by simp [hlen]; omega, rfl⟩
  · intro i hi
    rw [getD_map_range _ hi]
    exact evalShare_eq_polySum_mod p hp0 _ (i + 1)
  · intro i hi
    rw [getD_map_range _ hi]
    exact ⟨(evalShare_spec p hp0 _ (i + 1)).1, (evalShare_spec p hp0 _ (i + 1)).2.1⟩

/-- C2 witness: instantiation at `p = 7`, `N = 3`, `t = 2`, `s = 5`,
random draw `[4]`. -/
theorem C2_generate_output_witness :
    ∃ shares : List Int, generate_shares 7 3 5 [4] = Except.ok shares ∧
      shares.length = 3 ∧
      (∀ i, i < 3 → shares.getD i 0
        = polySum ((5 : Int) :: [(4 : Nat)].map Int.ofNat) ((i + 1 : Nat) : Int) % (7 : Int)) ∧
      (∀ i, i < 3 → 0 ≤ shares.getD i 0 ∧ shares.getD i 0 < (7 : Int)) ∧
      ((5 : Int) :: [(4 : Nat)].map Int.ofNat).length = 2 ∧
      ((5 : Int) :: [(4 : Nat)].map Int.ofNat).getD 0 0 = 5 :=
  C2_generate_output 7 3 2 (by norm_num) (by omega) 5 (by omega) (by omega) [4] rfl

/-- For the recomputed x-coordinates `1, ..., k` with `k ≤ p`, every Lagrange
denominator of `reconstruct_secret` is nonzero mod the prime `p`. -/
theorem range_den_ne_zero (p : Nat) (hp : p.Prime) (k : Nat) (hkp : k ≤ p) :
    ∀ i, i < k →
      (((lagrangeNumDen p ((List.range k).map fun j => ((j + 1 : Nat) : Int)) k i).2
        : Int) : ZMod p) ≠ 0 := by
  haveI := Fact.mk hp
  intro i hi
  rw [(lagrangeNumDen_spec p hp.one_lt _ i k).2.2.2, Finset.prod_ne_zero_iff]
  intro j hj h0
  have hjlt : j < k := Finset.mem_range.1 (Finset.mem_of_mem_erase hj)
  have hjne : j ≠ i := Finset.ne_of_mem_erase hj
  rw [getD_map_range _ hi, getD_map_range _ hjlt] at h0
  apply coords_distinct_mod p i j (lt_of_lt_of_le hi hkp) (lt_of_lt_of_le hjlt hkp)
    (fun h => hjne h.symm)
  push_cast at h0 ⊢
  exact sub_eq_zero.1 h0

/-- Whenever the shares actually used number at most `p`, reconstruction over
the prime `p` succeeds. -/
theorem reconstruct_ok_of_len (p t : Nat) (hp : p.Prime) (l : List Int)
    (hlp : l.length ≤ p) (hle : ¬ (l.length > t)) :
    ∃ r : Int, reconstruct_secret p t l = Except.ok r ∧ 0 ≤ r ∧ r < (p : Int) := by
  rw [reconstruct_eq_of_le p t l hle]
  obtain ⟨S, hok, hS0, hSp, -⟩ :=
    lagrange_sum_ok p hp _ l (range_den_ne_zero p hp l.length hlp)
  exact ⟨S, hok, hS0, hSp⟩

/-- C7: with `1 ≤ k < t` shares over a prime modulus `p > k`,
`reconstruct_secret` emits (only) the recoverable sub-threshold warning, does
not raise, and returns an integer in `[0, p)`. -/
theorem C7_subthreshold (p t : Nat) (hp : p.Prime) (shares : List Int)
    (_hk1 : 1 ≤ shares.length) (hkt : shares.length < t) (hkp : shares.length < p) :
    reconstruct_warns t shares = true ∧
    ∃ r : Int, reconstruct_secret p t shares = Except.ok r ∧ 0 ≤ r ∧ r < (p : Int) := by
  constructor
  · simp [reconstruct_warns]
    omega
  · exact reconstruct_ok_of_len p t hp shares (by omega) (by omega)

/-- C7 witness: two shares, threshold 3, prime 7. -/
theorem C7_subthreshold_witness :
    reconstruct_warns 3 [2, 6] = true ∧
    ∃ r : Int, reconstruct_secret 7 3 [2, 6] = Except.ok r ∧ 0 ≤ r ∧ r < (7 : Int) :=
  C7_subthreshold 7 3 (by norm_num) [2, 6] (by decide) (by decide) (by decide)

/-- C10: over a prime modulus larger than the number of shares actually used
(`min k threshold`), the no-inverse branch of `reconstruct_secret` is
unreachable — the recomputed x-coordinates `1..k` are pairwise distinct mod
`p`, so every denominator is invertible and the call returns a value; in
particular duplicate supplied shares can never trigger the error. -/
theorem C10_no_inverse_unreachable (p threshold : Nat) (hp : p.Prime)
    (shares : List Int) (hkp : min shares.length threshold < p) :
    ∃ r : Int, reconstruct_secret p threshold shares = Except.ok r := by
  rcases Nat.lt_or_ge threshold shares.length with h | h
  · have htake : (shares.take threshold).length = threshold := by
      rw [List.length_take]
      omega
    have heq : reconstruct_secret p threshold shares
        = reconstruct_secret p threshold (shares.take threshold) := by
      unfold reconstruct_secret
      rw [if_pos h, if_neg (by omega)]
    rw [heq]
    obtain ⟨r, hok, -, -⟩ := reconstruct_ok_of_len p threshold hp (shares.take threshold)
      (by omega) (by omega)
    exact ⟨r, hok⟩
  · obtain ⟨r, hok, -, -⟩ := reconstruct_ok_of_len p threshold hp shares
      (by omega) (by omega)
    exact ⟨r, hok⟩

/-- C10 witness: duplicate shares `[3, 3, 3]` with threshold 2 over `p = 7`
still reconstruct without hitting the no-inverse branch. -/
theorem C10_no_inverse_unreachable_witness :
    ∃ r : Int, reconstruct_secret 7 2 [3, 3, 3] = Except.ok r :=
  C10_no_inverse_unreachable 7 2 (by norm_num) [3, 3, 3] (by decide)

/-- C1 (amended): for every prime `p`, `2 ≤ t ≤ N`, and — as the
counterexample forces — `t ≤ p`, every secret in `[0, p)` is recovered from
the first `t` generated shares. -/
theorem C1_roundtrip (p N t : Nat) (hp : p.Prime) (ht2 : 2 ≤ t) (htN : t ≤ N)
    (htp : t ≤ p) (s : Int) (hs0 : 0 ≤ s) (hsp : s < (p : Int)) (rand : List Nat)
    (hlen : rand.length = t - 1) :
    ∃ shares : List Int, generate_shares p N s rand = Except.ok shares ∧
      reconstruct_secret p t (shares.take t) = Except.ok s := by
  obtain ⟨sh, h1, -, h3⟩ := roundtrip_core p N t hp (by omega) htN htp s hs0 hsp rand hlen
  exact ⟨sh, h1, h3⟩

/-- C1 witness: instantiation at `p = 7`, `N = 3`, `t = 2`, `s = 5`,
random draw `[4]`. -/
theorem C1_roundtrip_witness :
    ∃ shares : List Int, generate_shares 7 3 5 [4] = Except.ok shares ∧
      reconstruct_secret 7 2 (shares.take 2) = Except.ok 5 :=
  C1_roundtrip 7 3 2 (by norm_num) (by omega) (by omega) (by omega) 5 (by omega)
    (by omega) [4] rfl

/-- C1 counterexample: at the prime `p = 2` with `N = t = 3` (allowed by the
claim, which bounds `t` only by `N`) and secret `0` with coefficient draws
`[0, 0]`, generation succeeds with shares `[0, 0, 0]` but reconstructing the
first `t` shares raises the no-inverse error — the x-coordinates `1, 2, 3`
collide mod 2 — instead of returning the secret. -/
theorem C1_counterexample :
    generate_shares 2 3 0 [0, 0] = Except.ok [0, 0, 0] ∧
    reconstruct_secret 2 3 ([0, 0, 0].take 3)
      = Except.error "Modular inverse does not exist" := by
  constructor
  · rfl
  · have h1 : mod_inverse 0 2 = Except.error "Modular inverse does not exist" :=
      mod_inverse_error 0 2 (by decide)
    have h2 : mod_inverse (lagrangeNumDen 2 [1, 2, 3] 3 0).2.toNat 2
        = Except.error "Modular inverse does not exist" := by
      rw [show (lagrangeNumDen 2 [1, 2, 3] 3 0).2.toNat = 0 from by decide]
      exact h1
    show lagrange_sum 2 [1, 2, 3] [0, 0, 0] = Except.error "Modular inverse does not exist"
    unfold lagrange_sum
    rw [show ([0, 0, 0] : List Int).length = 3 from rfl,
      show List.range 3 = [0, 1, 2] from rfl, List.foldlM_cons]
    simp only [h2]
    rfl

/-- C5 (amended): `generate_shares` fails exactly when the secret is outside
`[0, p)` — in particular `secret = p` and `secret = -1` fail while `secret = 0`
and `secret = p - 1` are accepted — and, provided additionally `t ≤ p` (as the
counterexample forces), the boundary secrets `0` and `p - 1` round-trip
correctly. -/
theorem C5_secret_range (p N t : Nat) (hp : p.Prime) (ht2 : 2 ≤ t) (htN : t ≤ N)
    (htp : t ≤ p) (rand : List Nat) (hlen : rand.length = t - 1) :
    (∀ s : Int, (∃ e, generate_shares p N s rand = Except.error e)
      ↔ ¬ (0 ≤ s ∧ s < (p : Int))) ∧
    (∃ e, generate_shares p N (p : Int) rand = Except.error e) ∧
    (∃ e, generate_shares p N (-1) rand = Except.error e) ∧
    (∃ shares, generate_shares p N 0 rand = Except.ok shares ∧
      reconstruct_secret p t (shares.take t) = Except.ok 0) ∧
    (∃ shares, generate_shares p N ((p : Int) - 1) rand = Except.ok shares ∧
      reconstruct_secret p t (shares.take t) = Except.ok ((p : Int) - 1)) := by
  have hp1 : 1 ≤ p := hp.pos
  have hiff : ∀ s : Int, (∃ e, generate_shares p N s rand = Except.error e)
      ↔ ¬ (0 ≤ s ∧ s < (p : Int)) := by
    intro s
    unfold generate_shares
    by_cases h : 0 ≤ s ∧ s < (p : Int)
    · rw [if_pos h]
      simp [h]
    · rw [if_neg h]
      simp [h]
  refine ⟨hiff, ?_, ?_, ?_, ?_⟩
  · exact (hiff _).2 (by intro h; omega)
  · exact (hiff _).2 (by intro h; omega)
  · obtain ⟨sh, h1, -, h3⟩ := roundtrip_core p N t hp (by omega) htN htp 0 le_rfl
      (by omega) rand hlen
    exact ⟨sh, h1, h3⟩
  · obtain ⟨sh, h1, -, h3⟩ := roundtrip_core p N t hp (by omega) htN htp ((p : Int) - 1)
      (by omega) (by omega) rand hlen
    exact ⟨sh, h1, h3⟩

/-- C5 witness: instantiation at `p = 7`, `N = 3`, `t = 2`, random draw `[4]`. -/
theorem C5_secret_range_witness :
    (∀ s : Int, (∃ e, generate_shares 7 3 s [4] = Except.error e)
      ↔ ¬ (0 ≤ s ∧ s < (7 : Int))) ∧
    (∃ e, generate_shares 7 3 ((7 : Nat) : Int) [4] = Except.error e) ∧
    (∃ e, generate_shares 7 3 (-1) [4] = Except.error e) ∧
    (∃ shares, generate_shares 7 3 0 [4] = Except.ok shares ∧
      reconstruct_secret 7 2 (shares.take 2) = Except.ok 0) ∧
    (∃ shares, generate_shares 7 3 (((7 : Nat) : Int) - 1) [4] = Except.ok shares ∧
      reconstruct_secret 7 2 (shares.take 2) = Except.ok (((7 : Nat) : Int) - 1)) :=
  C5_secret_range 7 3 2 (by norm_num) (by omega) (by omega) (by omega) [4] rfl

/-- C5 counterexample: at `p = 2`, `N = t = 3`, the boundary secret
`p - 1 = 1` is accepted by `generate_shares` (draws `[0, 0]`, shares
`[1, 1, 1]`) but does not round-trip: reconstruction raises the no-inverse
error, so the claim's unconditional boundary round-trip is false. -/
theorem C5_counterexample :
    generate_shares 2 3 1 [0, 0] = Except.ok [1, 1, 1] ∧
    reconstruct_secret 2 3 ([1, 1, 1].take 3)
      = Except.error "Modular inverse does not exist" := by
  constructor
  · rfl
  · have h1 : mod_inverse 0 2 = Except.error "Modular inverse does not exist" :=
      mod_inverse_error 0 2 (by decide)
    have h2 : mod_inverse (lagrangeNumDen 2 [1, 2, 3] 3 0).2.toNat 2
        = Except.error "Modular inverse does not exist" := by
      rw [show (lagrangeNumDen 2 [1, 2, 3] 3 0).2.toNat = 0 from by decide]
      exact h1
    show lagrange_sum 2 [1, 2, 3] [1, 1, 1] = Except.error "Modular inverse does not exist"
    unfold lagrange_sum
    rw [show ([1, 1, 1] : List Int).length = 3 from rfl,
      show List.range 3 = [0, 1, 2] from rfl, List.foldlM_cons]
    simp only [h2]
    rfl

/-- Indexing a mapped list of naturals. -/
theorem getD_map_nat {l : List Nat} {i : Nat} (f : Nat → Int) (hi : i < l.length) :
    (l.map f).getD i 0 = f (l.getD i 0) := by
  rw [List.getD_eq_getElem?_getD, List.getD_eq_getElem?_getD, List.getElem?_map,
    List.getElem?_eq_getElem hi]
  rfl

theorem getD_eq_get {l : List Nat} {i : Nat} (hi : i < l.length) :
    l.getD i 0 = l.get ⟨i, hi⟩ := by
  rw [List.getD_eq_getElem?_getD, List.getElem?_eq_getElem hi]
  rfl

theorem getD_mem_of_lt {l : List Nat} {i : Nat} (hi : i < l.length) :
    l.getD i 0 ∈ l := by
  rw [getD_eq_get hi]
  exact List.get_mem l _ _

/-- C4 (amended): for every `t`-sized subset of the `N` generated shares (given
as a strictly increasing list of 0-based positions), reconstruction with the
x-coordinates matching the subset's true 1-based indices — the Lagrange loop of
the source run on those coordinates — returns the original secret, provided (as
the counterexample forces) `N ≤ p` so that the chosen indices stay pairwise
distinct mod `p`. -/
theorem C4_subset_reconstruction (p N t : Nat) (hp : p.Prime) (ht1 : 1 ≤ t) (_htN : t ≤ N)
    (hNp : N ≤ p) (s : Int) (hs0 : 0 ≤ s) (hsp : s < (p : Int)) (rand : List Nat)
    (hlen : rand.length = t - 1) (idx : List Nat) (hidxlen : idx.length = t)
    (hidxlt : ∀ k, k ∈ idx → k < N) (hsorted : idx.Pairwise (· < ·))
    (shares : List Int) (hgen : generate_shares p N s rand = Except.ok shares) :
    lagrange_sum p (idx.map fun k => ((k + 1 : Nat) : Int))
      (idx.map fun k => shares.getD k 0) = Except.ok s := by
  have hp0 : 0 < p := hp.pos
  have hsh : shares = (List.range N).map fun k =>
      evalShare p (s :: rand.map Int.ofNat) (k + 1) := by
    unfold generate_shares at hgen
    rw [if_pos ⟨hs0, hsp⟩] at hgen
    exact (Except.ok.inj hgen).symm
  have hslen : (idx.map fun k => shares.getD k 0).length = idx.length := by simp
  have hidxne : ∀ a b, a < idx.length → b < idx.length → a ≠ b →
      idx.getD a 0 ≠ idx.getD b 0 := by
    intro a b ha hb hne
    rw [getD_eq_get ha, getD_eq_get hb]
    rcases Nat.lt_or_ge a b with hab | hab
    · exact Nat.ne_of_lt (List.pairwise_iff_get.1 hsorted ⟨a, ha⟩ ⟨b, hb⟩ hab)
    · have hba : b < a := by omega
      exact (Nat.ne_of_lt (List.pairwise_iff_get.1 hsorted ⟨b, hb⟩ ⟨a, ha⟩ hba)).symm
  have hdist : ∀ i j, i < (idx.map fun k => shares.getD k 0).length →
      j < (idx.map fun k => shares.getD k 0).length → i ≠ j →
      (((idx.map fun k => ((k + 1 : Nat) : Int)).getD i 0 : Int) : ZMod p)
        ≠ (((idx.map fun k => ((k + 1 : Nat) : Int)).getD j 0 : Int) : ZMod p) := by
    intro i j hi hj hne
    rw [hslen] at hi hj
    rw [getD_map_nat _ hi, getD_map_nat _ hj]
    have hineq := hidxne i j hi hj hne
    have hilt : idx.getD i 0 < N := hidxlt _ (getD_mem_of_lt hi)
    have hjlt : idx.getD j 0 < N := hidxlt _ (getD_mem_of_lt hj)
    have h := coords_distinct_mod p (idx.getD i 0) (idx.getD j 0) (by omega) (by omega) hineq
    intro hcontra
    apply h
    push_cast at hcontra ⊢
    exact hcontra
  have hy : ∀ i, i < (idx.map fun k => shares.getD k 0).length →
      (((idx.map fun k => shares.getD k 0).getD i 0 : Int) : ZMod p)
        = ((polySum (s :: rand.map Int.ofNat)
            ((idx.map fun k => ((k + 1 : Nat) : Int)).getD i 0) : Int) : ZMod p) := by
    intro i hi
    rw [hslen] at hi
    rw [getD_map_nat _ hi, getD_map_nat _ hi]
    have hklt : idx.getD i 0 < N := hidxlt _ (getD_mem_of_lt hi)
    rw [hsh, getD_map_range _ hklt]
    exact (evalShare_spec p hp0 _ (idx.getD i 0 + 1)).2.2
  obtain ⟨S, hok, hS0, hSp, hSc⟩ := lagrange_sum_interpolates p hp
    (idx.map fun k => ((k + 1 : Nat) : Int)) (idx.map fun k => shares.getD k 0)
    (s :: rand.map Int.ofNat) (by simp)
    (by rw [hslen, hidxlen]; simp [hlen]; omega) hdist hy
  rw [hok, int_eq_of_zmod_eq hS0 hSp hs0 hsp (by rw [hSc]; rfl)]

/-- C4 witness: `p = 7`, `N = 3`, `t = 2`, secret `5`, draw `[4]`, shares
`[2, 6, 3]`, subset positions `[0, 2]` (x-coordinates `1` and `3`). -/
theorem C4_subset_reconstruction_witness :
    lagrange_sum 7 (([0, 2] : List Nat).map fun k => ((k + 1 : Nat) : Int))
      (([0, 2] : List Nat).map fun k => ([2, 6, 3] : List Int).getD k 0) = Except.ok 5 :=
  C4_subset_reconstruction 7 3 2 (by norm_num) (by omega) (by omega) (by omega) 5
    (by omega) (by omega) [4] rfl [0, 2] rfl (by decide) (by decide) [2, 6, 3] rfl

/-- C4 counterexample: at `p = 2`, `N = 3`, `t = 2`, secret `0` (draw `[0]`,
shares `[0, 0, 0]`), the subset at positions 1 and 3 with its true
x-coordinates `[1, 3]` does not reconstruct the secret: the coordinates
collide mod 2 and the Lagrange loop raises the no-inverse error, so the claim
fails without a bound relating `N` and `p`. -/
theorem C4_counterexample :
    generate_shares 2 3 0 [0] = Except.ok [0, 0, 0] ∧
    lagrange_sum 2 [1, 3] [0, 0] = Except.error "Modular inverse does not exist" := by
  constructor
  · rfl
  · have h1 : mod_inverse 0 2 = Except.error "Modular inverse does not exist" :=
      mod_inverse_error 0 2 (by decide)
    have h2 : mod_inverse (lagrangeNumDen 2 [1, 3] 2 0).2.toNat 2
        = Except.error "Modular inverse does not exist" := by
      rw [show (lagrangeNumDen 2 [1, 3] 2 0).2.toNat = 0 from by decide]
      exact h1
    unfold lagrange_sum
    rw [show ([0, 0] : List Int).length = 2 from rfl,
      show List.range 2 = [0, 1] from rfl, List.foldlM_cons]
    simp only [h2]
    rfl

end MPC
